import Mathlib

/-!
# Verification of the xsos Tic-tac-toe core

Shallow embedding of the xsos sources: `mark.rs`, `grid.rs`, `referee.rs`,
`game.rs`, `ai.rs` and `core/ai.rs` (the repository keeps two iterations of
the move selector).  Mutating Rust methods become state-passing functions,
iterators become lists, machine integers (`i8`, `i32`, `u32`) become `Int`
and `Nat` (all values involved stay far from the overflow boundaries; the
one place the Rust sentinel `i8::MIN` could overflow is commented at its
definition), and fallible calls return `Option`.
-/

set_option maxRecDepth 8000

/-- Either an `X` or an `O` can be marked on a grid cell (`mark.rs`). -/
inductive Mark
  | X
  | O
deriving DecidableEq, Repr

/-- Exchanges one mark for the other (`Mark::swap` in `mark.rs`). -/
def Mark.swap : Mark → Mark
  | .X => .O
  | .O => .X

/-- Zero-based `(row, col)` pair (`grid.rs`). -/
abbrev Position := Nat × Nat

/-- A cell either holds a mark or is empty (`grid.rs`). -/
abbrev Cell := Option Mark

/-- Grid side length (`grid.rs`, `const SIZE`). -/
def SIZE : Nat := 3

/-- A 3x3 grid: nine cells in row-major order plus the last mark placed
(`grid.rs`).  The Rust array `[Cell; 9]` is embedded as a function on
`Fin 9`. -/
structure Grid where
  cells : Fin 9 → Cell
  last : Option Mark
deriving DecidableEq

/-- `to_index` in `grid.rs` computes `r * SIZE + c`; in Rust the subsequent
array access panics when the result is out of range.  All callers in
`game.rs` first check `in_bounds`, under which the `% 9` below is the
identity; it merely totalizes the function. -/
def toIndex : Position → Fin 9 :=
  fun (r, c) => ⟨(r * SIZE + c) % 9, Nat.mod_lt _ (by decide)⟩

/-- `to_pos` in `grid.rs`: `(index / SIZE, index % SIZE)`. -/
def toPos (i : Fin 9) : Position := (i.val / SIZE, i.val % SIZE)

namespace Grid

/-- `Grid::new`: all cells empty, no last mark. -/
def new : Grid := ⟨fun _ => none, none⟩

/-- `Grid::in_bounds`: `r < SIZE && c < SIZE`. -/
def in_bounds : Position → Bool :=
  fun (r, c) => decide (r < SIZE) && decide (c < SIZE)

/-- `Grid::mark`: store the mark at the cell and remember it as last. -/
def mark (g : Grid) (p : Position) (m : Mark) : Grid :=
  { cells := Function.update g.cells (toIndex p) (some m), last := some m }

/-- `Grid::is_unmarked_at`. -/
def is_unmarked_at (g : Grid) (p : Position) : Bool :=
  (g.cells (toIndex p)).isNone

/-- `Grid::is_marked_at`. -/
def is_marked_at (g : Grid) (p : Position) : Bool :=
  !g.is_unmarked_at p

/-- `Grid::last_mark`. -/
def last_mark (g : Grid) : Option Mark := g.last

/-- `Grid::unmarked_positions`: the positions of the empty cells in
row-major order.  The Rust iterator walks the indices `0..9` in order and
yields `to_pos i` for every empty cell, which is this `filterMap`. -/
def unmarked_positions (g : Grid) : List Position :=
  (List.finRange 9).filterMap
    (fun i => if (g.cells i).isNone then some (toPos i) else none)

/-- `Grid::cells` as a list in row-major order (the field already holds the
cells; this is the iterator view). -/
def cellsList (g : Grid) : List Cell :=
  (List.finRange 9).map g.cells

/-- `core/grid.rs` names the identical traversal `available_positions`. -/
def available_positions (g : Grid) : List Position :=
  g.unmarked_positions

end Grid

namespace Referee

/-- Terminal outcomes (`referee.rs`).  The earlier iterations of the source
name the drawn variant `Squash`, the later ones `Draw`; the spec treats the
two names as the same canonical variant, rendered `Draw` here. -/
inductive Outcome
  | Win
  | Draw
deriving DecidableEq, Repr

/-- The eight winning arrangements (`referee.rs`, `ARRANGEMENTS`). -/
def ARRANGEMENTS : List (Fin 9 × Fin 9 × Fin 9) :=
  [(0, 1, 2), (3, 4, 5), (6, 7, 8),
   (0, 3, 6), (1, 4, 7), (2, 5, 8),
   (0, 4, 8), (2, 4, 6)]

/-- `referee.rs::is_win`: some arrangement holds the given mark three
times. -/
def is_win (g : Grid) (m : Mark) : Bool :=
  ARRANGEMENTS.any (fun t =>
    g.cells t.1 == some m && g.cells t.2.1 == some m && g.cells t.2.2 == some m)

/-- `referee.rs::is_squash`: every cell is marked. -/
def is_squash (g : Grid) : Bool :=
  g.cellsList.all (fun c => c.isSome)

/-- `referee.rs::evaluate` (two arguments: the grid and the mark whose win
is being checked). -/
def evaluate (g : Grid) (m : Mark) : Option Outcome :=
  if is_win g m then some .Win
  else if is_squash g then some .Draw
  else none

end Referee

namespace SpecReferee

/-- A cell triple all holding the same non-empty mark. -/
def same_non_empty (g : Grid) (t : Fin 9 × Fin 9 × Fin 9) : Bool :=
  (g.cells t.1).isSome && g.cells t.1 == g.cells t.2.1 && g.cells t.2.1 == g.cells t.2.2

/-- Modelled from the spec: `game.rs` line 244 calls a one-argument
`referee::evaluate(&game.grid)`; the module defining that one-argument
referee is not among the sources (the `referee.rs` present is the earlier
two-argument iteration).  Spec §4.2 gives its contract: `Win` when some
arrangement holds the same non-empty mark three times, else `Draw` when
every cell is non-empty, else `None`. -/
def evaluate (g : Grid) : Option Referee.Outcome :=
  if Referee.ARRANGEMENTS.any (fun t => same_non_empty g t) then some .Win
  else if g.cellsList.all (fun c => c.isSome) then some .Draw
  else none

end SpecReferee

/-- Game progress (`game.rs`, `enum State`). -/
inductive State
  | Play
  | GameOver (outcome : Referee.Outcome)
deriving DecidableEq, Repr

/-- The possible play errors (`game.rs`). -/
inductive PlayError
  | AlreadyMarked
  | OutOfBounds
deriving DecidableEq, Repr

/-- The game state machine (`game.rs`). -/
structure Game where
  grid : Grid
  turn : Mark
  state : State
deriving DecidableEq

namespace Game

/-- `Game::start`. -/
def start (first : Mark) : Game :=
  { grid := Grid.new, turn := first, state := .Play }

/-- `Game::restart`: clear the grid, swap the turn only after a draw, set
the state back to play. -/
def restart (g : Game) : Game :=
  { grid := Grid.new,
    turn := if g.state = .GameOver .Draw then g.turn.swap else g.turn,
    state := .Play }

/-- `Game::is_playing`. -/
def is_playing (g : Game) : Bool := g.state == .Play

/-- `Game::is_game_over`. -/
def is_game_over (g : Game) : Bool := !g.is_playing

/-- `Game::outcome`. -/
def outcome (g : Game) : Option Referee.Outcome :=
  match g.state with
  | .GameOver o => some o
  | .Play => none

/-- `game.rs::unchecked_play`: mark the cell with the turn's mark, ask the
referee, and either finish the game (turn left as the just-moved player) or
swap the turn. -/
def unchecked_play (g : Game) (p : Position) : Game :=
  let grid' := g.grid.mark p g.turn
  match SpecReferee.evaluate grid' with
  | some o => { g with grid := grid', state := .GameOver o }
  | none => { g with grid := grid', turn := g.turn.swap }

/-- `Game::play`: silently ignored after game over, `OutOfBounds` and
`AlreadyMarked` otherwise guarded, else an unchecked play.  The Rust method
mutates and returns `Option<PlayError>`; here the updated game is returned
alongside. -/
def play (g : Game) (p : Position) : Option PlayError × Game :=
  if g.is_playing then
    if Grid.in_bounds p then
      if g.grid.is_unmarked_at p then (none, g.unchecked_play p)
      else (some .AlreadyMarked, g)
    else (some .OutOfBounds, g)
  else (none, g)

/-- The `ai.rs` iteration's game exposes `available_positions` directly on
the game; it is the grid traversal. -/
def available_positions (g : Game) : List Position :=
  g.grid.unmarked_positions

/-- Playing while discarding the returned error, as both AI iterations do
(`next_game.play(pos);`). -/
def playG (g : Game) (p : Position) : Game := (g.play p).2

/-- Replaying a whole sequence of positions from a starting state. -/
def playAll (g : Game) (ps : List Position) : Game :=
  ps.foldl playG g

/-- A game state is reachable when some starting mark and sequence of
`play` calls produce it. -/
def Reachable (g : Game) : Prop :=
  ∃ (first : Mark) (ps : List Position), g = (start first).playAll ps

/-- The states the public API maintains: while in play the (one-argument)
referee sees no finished grid.  Every reachable state satisfies this. -/
def Wf (g : Game) : Prop :=
  g.state = State.Play → SpecReferee.evaluate g.grid = none

instance : DecidablePred Wf := fun g => by unfold Wf; infer_instance

end Game

namespace Ai

/-- `ai.rs::Value`: a score, the depth at which the search resolved, and
the positions realizing it. -/
structure Value where
  score : Int
  depth : Nat
  positions : List Position
deriving DecidableEq, Repr

/-- `Value::new`. -/
def Value.new (score : Int) (depth : Nat) : Value :=
  { score := score, depth := depth, positions := [] }

/-- `Value::max`: higher score wins; on equal scores smaller depth wins; on
a full tie the position sets are concatenated (keeping self's score and
depth). -/
def Value.max (self other : Value) : Value :=
  if self.score > other.score then self
  else if other.score > self.score then other
  else if self.depth < other.depth then self
  else if other.depth < self.depth then other
  else { self with positions := self.positions ++ other.positions }

/-- `Value::min`: mirror image of `Value::max`. -/
def Value.min (self other : Value) : Value :=
  if self.score < other.score then self
  else if other.score < self.score then other
  else if self.depth < other.depth then self
  else if other.depth < self.depth then other
  else { self with positions := self.positions ++ other.positions }

/-- `ai.rs::max_score`: the Rust code unwraps `game.outcome()`; the `none`
branch is the unreachable panic (every caller is on a terminal game). -/
def max_score (g : Game) : Int :=
  match g.outcome with
  | some .Win => 2
  | some .Draw => 1
  | none => 0

/-- `ai.rs::min_score`. -/
def min_score (g : Game) : Int := -max_score g

mutual

/-- `ai.rs::maximize`, with explicit fuel for the recursion; the fuel-zero
branch is unreachable whenever `fuel` is at least the number of unmarked
cells (each recursive call marks one more cell).  The Rust
`value.unwrap()` at the end of the loop is the `getD`: it is reached with
`none` only when a game in play has no available position, which the
public `Game` API never produces. -/
def maximize (fuel : Nat) (g : Game) (depth : Nat) : Value :=
  if g.is_playing then
    match fuel with
    | 0 => Value.new 0 depth
    | fuel' + 1 =>
      ((g.available_positions).foldl
        (fun acc pos =>
          let next := { minimize fuel' (g.playG pos) (depth + 1) with positions := [pos] }
          some (match acc with
                | none => next
                | some v => v.max next))
        none).getD (Value.new 0 depth)
  else
    Value.new (min_score g) depth

/-- `ai.rs::minimize`, mirror of `maximize`. -/
def minimize (fuel : Nat) (g : Game) (depth : Nat) : Value :=
  if g.is_playing then
    match fuel with
    | 0 => Value.new 0 depth
    | fuel' + 1 =>
      ((g.available_positions).foldl
        (fun acc pos =>
          let next := { maximize fuel' (g.playG pos) (depth + 1) with positions := [pos] }
          some (match acc with
                | none => next
                | some v => v.min next))
        none).getD (Value.new 0 depth)
  else
    Value.new (max_score g) depth

end

/-- `ai.rs::moves`.  Nine cells bound every search, so fuel 9 always
suffices. -/
def moves (g : Game) : List Position :=
  (maximize 9 g 0).positions

/-- `ai.rs::random_move` draws uniformly from `moves` and unwraps.  The
random source is modelled by the index `k`; `choose` on a slice returns
`none` exactly on the empty slice, in which case the Rust `unwrap` panics —
modelled by the `none` result. -/
def random_move (g : Game) (k : Nat) : Option Position :=
  (moves g).get? (k % (moves g).length)

end Ai

namespace CoreAi

/-- `core/ai.rs::score`. -/
def score : Referee.Outcome → Int
  | .Win => 2
  | .Draw => 1

/-- `core/ai.rs::negamax`, with fuel as in `Ai.maximize`.  The `-128`
sentinel is Rust's `i8::MIN`; it survives the loop only when a game in
play has no available position (never produced by the public API — in Rust
that stray case would overflow in `color * value`). -/
def negamax : Nat → Game → Int → Int
  | 0, g, color =>
    match g.outcome with
    | some o => -(color * score o)
    | none => color * (-128)
  | fuel' + 1, g, color =>
    match g.outcome with
    | some o => -(color * score o)
    | none =>
      color * ((g.grid.available_positions).foldl
        (fun value pos => Max.max value (color * negamax fuel' (g.playG pos) (-color)))
        (-128))

/-- `core/ai.rs::find_best_moves`: scan the available positions, keep the
running best negamax value and the positions attaining it. -/
def find_best_moves (fuel : Nat) (g : Game) : List Position :=
  match g.outcome with
  | none =>
    ((g.grid.available_positions).foldl
      (fun (acc : Int × List Position) pos =>
        let next_value := negamax fuel (g.playG pos) (-1)
        if next_value > acc.1 then (next_value, [pos])
        else if next_value == acc.1 then (acc.1, acc.2 ++ [pos])
        else acc)
      (-128, [])).2
  | some _ => []

/-- `core/ai.rs::moves`: 0, 1 or 9 available positions are returned as
they are; otherwise the search runs. -/
def moves (g : Game) : List Position :=
  let positions := g.grid.available_positions
  match positions.length with
  | 0 => positions
  | 1 => positions
  | 9 => positions
  | _ => find_best_moves 9 g

/-- `core/ai.rs::random_move`, modelled as `Ai.random_move`. -/
def random_move (g : Game) (k : Nat) : Option Position :=
  (moves g).get? (k % (moves g).length)

end CoreAi

namespace Spec

/-- Terminal score as the spec gives it: `Win → +2`, `Draw → +1`. -/
def score : Referee.Outcome → Int
  | .Win => 2
  | .Draw => 1

/-- Perspective change on a `(value, depth)` pair: negate the value, keep
the depth. -/
def neg1 (a : Int × Nat) : Int × Nat := (-a.1, a.2)

/-- The spec's tie-break combine: higher value wins; on equal value,
smaller depth wins (the left pair is kept on a full tie). -/
def combine (a b : Int × Nat) : Int × Nat :=
  if a.1 > b.1 then a
  else if b.1 > a.1 then b
  else if a.2 ≤ b.2 then a
  else b

/-- The tie-break order: `a` is at least as good as `b`. -/
def GeLex (a b : Int × Nat) : Prop :=
  b.1 < a.1 ∨ (a.1 = b.1 ∧ a.2 ≤ b.2)

instance : ∀ a b, Decidable (GeLex a b) := fun a b => by unfold GeLex; infer_instance

/-- The spec's recursive search `negamax(game, depth) -> (value,
depth_at_resolution)`: a terminal game is worth `(−score(outcome), depth)`;
otherwise each child's pair is negated and the children are combined under
the tie-break order.  Fuel bounds the recursion; nine cells make fuel 9
always sufficient. -/
def negamax : Nat → Game → Nat → Int × Nat
  | 0, g, depth =>
    match g.outcome with
    | some o => (-(score o), depth)
    | none => (0, depth)
  | fuel' + 1, g, depth =>
    match g.outcome with
    | some o => (-(score o), depth)
    | none =>
      match (g.available_positions).map
          (fun p => neg1 (negamax fuel' (g.playG p) (depth + 1))) with
      | [] => (0, depth)
      | q :: qs => qs.foldl combine q

/-- The plain minimax value of a game from the perspective of the player
to move: a terminal game is worth `−score(outcome)`; otherwise the maximum
over the children of the negated child value. -/
def mmValue : Nat → Game → Int
  | 0, g =>
    match g.outcome with
    | some o => -(score o)
    | none => 0
  | fuel' + 1, g =>
    match g.outcome with
    | some o => -(score o)
    | none =>
      match (g.available_positions).map (fun p => -(mmValue fuel' (g.playG p))) with
      | [] => 0
      | q :: qs => qs.foldl Max.max q

end Spec

/-! ## Concrete game states used by the scenarios -/

/-- Scenario S4: X plays `(0,0)`, O plays `(0,1)`, X plays `(1,1)`; O to
move, every move loses. -/
def gGiveUp : Game := (Game.start .X).playAll [(0, 0), (0, 1), (1, 1)]

/-- The `core/ai.rs` test state: X plays `(0,0)`, O `(0,2)`, X `(1,0)`,
O `(2,1)`; X to move with several winning moves of different lengths. -/
def gWinFour : Game := (Game.start .X).playAll [(0, 0), (0, 2), (1, 0), (2, 1)]

/-- A finished game (O wins on the eighth move) whose grid still has the
single unmarked cell `(2,2)`. -/
def gLastCell : Game :=
  (Game.start .X).playAll [(0, 0), (0, 1), (0, 2), (1, 1), (1, 0), (2, 0), (1, 2), (2, 1)]

/-- A finished game in which X's last move `(0,2)` completes two winning
arrangements at once: row `(0,1,2)` and column `(2,5,8)`. -/
def gDoubleWin : Game :=
  (Game.start .X).playAll [(0, 0), (1, 0), (1, 2), (1, 1), (2, 2), (2, 0), (0, 1), (2, 1), (0, 2)]

/-- Scenario S5: X wins on the diagonal. -/
def gXWin : Game :=
  (Game.start .X).playAll [(1, 1), (0, 2), (2, 0), (1, 2), (2, 2), (2, 1), (0, 0)]

/-- Scenario S6: a full drawn game started by O. -/
def gDrawSwap : Game :=
  (Game.start .O).playAll [(1, 1), (0, 0), (2, 2), (0, 2), (0, 1), (2, 1), (1, 2), (1, 0), (2, 0)]

/-- The first eight moves of scenario S6: still in play, one empty cell. -/
def gNearDraw : Game :=
  (Game.start .O).playAll [(1, 1), (0, 0), (2, 2), (0, 2), (0, 1), (2, 1), (1, 2), (1, 0)]

/-- A grid whose top row is three X while O has only two marks; built
directly with `Grid::mark`. -/
def gridXRow : Grid :=
  ((((Grid.new.mark (0, 0) .X).mark (0, 1) .X).mark (0, 2) .X).mark (1, 0) .O).mark (1, 1) .O

/-! ## Referee lemmas -/

/-- `is_win` answers the existence of an arrangement filled by the given
mark. -/
theorem is_win_iff (g : Grid) (m : Mark) :
    Referee.is_win g m = true ↔
      ∃ t ∈ Referee.ARRANGEMENTS,
        g.cells t.1 = some m ∧ g.cells t.2.1 = some m ∧ g.cells t.2.2 = some m := by
  simp [Referee.is_win, List.any_eq_true, Bool.and_eq_true, beq_iff_eq, and_assoc]

/-- `is_squash` answers whether every cell is marked. -/
theorem is_squash_iff (g : Grid) :
    Referee.is_squash g = true ↔ ∀ i : Fin 9, (g.cells i).isSome := by
  simp [Referee.is_squash, Grid.cellsList, List.all_eq_true]

/-- A cell that is not `isSome` is empty. -/
theorem cell_not_isSome (c : Cell) (h : ¬ c.isSome = true) : c = none := by
  cases c <;> simp at h ⊢

/-- C4 (amended): `evaluate(grid, mark)` returns `Win` exactly when some
arrangement holds the *given* mark three times; otherwise `Draw` exactly
when the grid is full; otherwise `None`. -/
theorem C4_referee_evaluate (g : Grid) (m : Mark) :
    (Referee.evaluate g m = some .Win ↔
      ∃ t ∈ Referee.ARRANGEMENTS,
        g.cells t.1 = some m ∧ g.cells t.2.1 = some m ∧ g.cells t.2.2 = some m) ∧
    (Referee.evaluate g m = some .Draw ↔
      ¬(∃ t ∈ Referee.ARRANGEMENTS,
          g.cells t.1 = some m ∧ g.cells t.2.1 = some m ∧ g.cells t.2.2 = some m) ∧
        ∀ i : Fin 9, (g.cells i).isSome) ∧
    (Referee.evaluate g m = none ↔
      ¬(∃ t ∈ Referee.ARRANGEMENTS,
          g.cells t.1 = some m ∧ g.cells t.2.1 = some m ∧ g.cells t.2.2 = some m) ∧
        ∃ i : Fin 9, g.cells i = none) := by
  by_cases hw : Referee.is_win g m = true
  · have h1 : Referee.evaluate g m = some .Win := by simp [Referee.evaluate, hw]
    rw [is_win_iff] at hw
    refine ⟨by simpa [h1] using hw, ?_, ?_⟩
    · rw [h1]
      constructor
      · intro h
        exact absurd h (by simp)
      · rintro ⟨hn, -⟩
        exact absurd hw hn
    · rw [h1]
      constructor
      · intro h
        exact absurd h (by simp)
      · rintro ⟨hn, -⟩
        exact absurd hw hn
  · have hw' : Referee.is_win g m = false := by simpa using hw
    rw [is_win_iff] at hw
    by_cases hs : Referee.is_squash g = true
    · have h1 : Referee.evaluate g m = some .Draw := by
        simp [Referee.evaluate, hw', hs]
      rw [is_squash_iff] at hs
      refine ⟨by rw [h1]; simpa using hw, by rw [h1]; exact ⟨fun _ => ⟨hw, hs⟩, fun _ => rfl⟩, ?_⟩
      rw [h1]
      constructor
      · intro h
        exact absurd h (by simp)
      · rintro ⟨-, i, hi⟩
        have h2 := hs i
        rw [hi] at h2
        simp at h2
    · have hs' : Referee.is_squash g = false := by simpa using hs
      have h1 : Referee.evaluate g m = none := by simp [Referee.evaluate, hw', hs']
      rw [is_squash_iff] at hs
      push_neg at hs
      rcases hs with ⟨i, hi⟩
      refine ⟨by rw [h1]; simpa using hw, ?_, ?_⟩
      · rw [h1]
        constructor
        · intro h
          exact absurd h (by simp)
        · rintro ⟨-, hall⟩
          exact absurd (hall i) hi
      · rw [h1]
        simp only [true_iff]
        exact ⟨hw, i, cell_not_isSome _ hi⟩

/-- C4 counterexample: the grid whose top row is three X is a win under
the claim's reading (some arrangement holds the same non-empty mark), yet
`evaluate(grid, O)` reports `none`: the source referee only checks the
mark it is handed. -/
theorem C4_counterexample :
    Referee.evaluate gridXRow Mark.O ≠ some Referee.Outcome.Win ∧
      ∃ t ∈ Referee.ARRANGEMENTS, ∃ m : Mark,
        gridXRow.cells t.1 = some m ∧ gridXRow.cells t.2.1 = some m ∧
          gridXRow.cells t.2.2 = some m := by
  decide

/-! ## Game state machine claims -/

/-- C5: `play` after game over returns `None` and changes nothing; an
out-of-bounds position on a live game returns `OutOfBounds` with no state
change; a marked cell returns `AlreadyMarked` with no state change; every
erroring `play` leaves the whole game (grid, turn and state) as it was. -/
theorem C5_play_errors (g : Game) (p : Position) :
    (g.is_game_over = true → g.play p = (none, g)) ∧
    (g.is_playing = true → Grid.in_bounds p = false →
      g.play p = (some PlayError.OutOfBounds, g)) ∧
    (g.is_playing = true → Grid.in_bounds p = true → g.grid.is_unmarked_at p = false →
      g.play p = (some PlayError.AlreadyMarked, g)) ∧
    (∀ e, (g.play p).1 = some e → (g.play p).2 = g) := by
  refine ⟨fun h => ?_, fun h1 h2 => ?_, fun h1 h2 h3 => ?_, fun e he => ?_⟩
  · have h0 : g.is_playing = false := by
      simpa [Game.is_game_over] using h
    simp [Game.play, h0]
  · simp [Game.play, h1, h2]
  · simp [Game.play, h1, h2, h3]
  · by_cases hp : g.is_playing = true
    · by_cases hb : Grid.in_bounds p = true
      · by_cases hu : g.grid.is_unmarked_at p = true
        · simp [Game.play, hp, hb, hu] at he
        · simp [Game.play, hp, hb, hu]
      · simp [Game.play, hp, hb]
    · simp [Game.play, hp]

/-- C5 witness: an out-of-bounds play on a fresh game errors and leaves
the game untouched. -/
theorem C5_witness :
    (Game.start Mark.X).play (3, 3) = (some PlayError.OutOfBounds, Game.start Mark.X) := by
  exact (C5_play_errors (Game.start Mark.X) (3, 3)).2.1 (by decide) (by decide)

/-- C6: a play on a live game at an in-bounds unmarked position returns
`None`, marks the cell with the current turn, and then either finishes the
game with the referee's outcome keeping the turn, or swaps the turn and
stays in play. -/
theorem C6_play_success (g : Game) (p : Position) (h1 : g.is_playing = true)
    (h2 : Grid.in_bounds p = true) (h3 : g.grid.is_unmarked_at p = true) :
    (g.play p).1 = none ∧
    (g.play p).2.grid = g.grid.mark p g.turn ∧
    (g.play p).2.grid.cells (toIndex p) = some g.turn ∧
    (∀ o, SpecReferee.evaluate (g.grid.mark p g.turn) = some o →
      (g.play p).2.state = State.GameOver o ∧ (g.play p).2.turn = g.turn) ∧
    (SpecReferee.evaluate (g.grid.mark p g.turn) = none →
      (g.play p).2.turn = g.turn.swap ∧ (g.play p).2.state = State.Play) := by
  have hplay : g.play p = (none, g.unchecked_play p) := by
    simp [Game.play, h1, h2, h3]
  have hstate : g.state = State.Play := by
    simpa [Game.is_playing] using h1
  rcases hev : SpecReferee.evaluate (g.grid.mark p g.turn) with _ | o
  · have hup : g.unchecked_play p
        = { g with grid := g.grid.mark p g.turn, turn := g.turn.swap } := by
      unfold Game.unchecked_play
      simp only [hev]
    refine ⟨by simp [hplay], by simp [hplay, hup], ?_, ?_, fun _ => ?_⟩
    · simp [hplay, hup, Grid.mark, Function.update_same]
    · intro o ho
      exact absurd ho (by simp)
    · exact ⟨by simp [hplay, hup], by simp [hplay, hup, hstate]⟩
  · have hup : g.unchecked_play p
        = { g with grid := g.grid.mark p g.turn, state := .GameOver o } := by
      unfold Game.unchecked_play
      simp only [hev]
    refine ⟨by simp [hplay], by simp [hplay, hup], ?_, ?_, fun h => ?_⟩
    · simp [hplay, hup, Grid.mark, Function.update_same]
    · intro o' ho
      have hoo : o = o' := by simpa using ho
      subst hoo
      exact ⟨by simp [hplay, hup], by simp [hplay, hup]⟩
    · exact absurd h (by simp)

/-- C6 witness: the first move of a fresh game marks the cell, swaps the
turn and stays in play. -/
theorem C6_witness :
    ((Game.start Mark.X).play (1, 1)).1 = none ∧
    ((Game.start Mark.X).play (1, 1)).2.grid.cells (toIndex (1, 1)) = some Mark.X ∧
    ((Game.start Mark.X).play (1, 1)).2.turn = Mark.O ∧
    ((Game.start Mark.X).play (1, 1)).2.state = State.Play := by
  have h := C6_play_success (Game.start Mark.X) (1, 1) (by decide) (by decide) (by decide)
  have hev : SpecReferee.evaluate ((Game.start Mark.X).grid.mark (1, 1) (Game.start Mark.X).turn)
      = none := by decide
  exact ⟨h.1, h.2.2.1, (h.2.2.2.2 hev).1, (h.2.2.2.2 hev).2⟩

/-- C8: `restart` clears the grid, returns to play, swaps the turn exactly
after a drawn game, and keeps it after a win or from a game in play. -/
theorem C8_restart (g : Game) :
    (g.restart).grid = Grid.new ∧
    (g.restart).state = State.Play ∧
    (g.state = State.GameOver Referee.Outcome.Draw → (g.restart).turn = g.turn.swap) ∧
    (g.state = State.GameOver Referee.Outcome.Win → (g.restart).turn = g.turn) ∧
    (g.state = State.Play → (g.restart).turn = g.turn) := by
  refine ⟨rfl, rfl, fun h => by simp [Game.restart, h], fun h => ?_, fun h => ?_⟩
  · simp [Game.restart, h]
  · simp [Game.restart, h]

/-- C8 witness: the drawn scenario-S6 game started by O restarts with X to
move; a won game restarts keeping the winner's turn. -/
theorem C8_witness :
    (gDrawSwap.restart).turn = Mark.X ∧ (gXWin.restart).turn = Mark.X := by
  constructor
  · have h := (C8_restart gDrawSwap).2.2.1 (by decide)
    rw [h]
    decide
  · have h := (C8_restart gXWin).2.2.2.1 (by decide)
    rw [h]
    decide

/-- C9: `restart` is idempotent: restarting twice from any state gives the
same game as restarting once. -/
theorem C9_restart_idempotent (g : Game) : (g.restart).restart = g.restart := by
  simp [Game.restart]

/-! ## Move-selector claims on concrete scenarios -/

/-- C2: a terminal game whose grid still has one unmarked cell.  The
`ai.rs` selector returns the empty list as the spec demands, but the
`core/ai.rs` selector hits its `1 => positions` shortcut before ever
checking for game over and returns the leftover cell. -/
theorem C2_terminal_one_empty :
    gLastCell.is_game_over = true ∧
    gLastCell.grid.unmarked_positions = [(2, 2)] ∧
    Ai.moves gLastCell = [] ∧
    CoreAi.moves gLastCell = [(2, 2)] := by
  decide

/-- C3 counterexample: on the S4 state the `ai.rs` selector does not
return the six-position list the claim demands (it drops the slowest
loss `(2,2)`). -/
theorem C3_counterexample :
    Ai.moves gGiveUp ≠ [(0, 2), (1, 0), (1, 2), (2, 0), (2, 1), (2, 2)] := by
  decide

/-- C3 (amended): on the S4 state the `core/ai.rs` selector returns every
remaining position in row-major order — exactly the grid's unmarked
positions — while the depth-aware `ai.rs` selector returns only the five
fastest-losing positions, omitting `(2,2)`. -/
theorem C3_all_losing_moves :
    CoreAi.moves gGiveUp = [(0, 2), (1, 0), (1, 2), (2, 0), (2, 1), (2, 2)] ∧
    CoreAi.moves gGiveUp = gGiveUp.grid.unmarked_positions ∧
    Ai.moves gGiveUp = [(0, 2), (1, 0), (1, 2), (2, 0), (2, 1)] := by
  decide

/-- Drawing from a list at an index reduced mod its length lands in the
list whenever it is non-empty. -/
theorem get_mod_length_mem (xs : List Position) (k : Nat) (h : xs ≠ []) :
    ∃ p, xs.get? (k % xs.length) = some p ∧ p ∈ xs := by
  have hl : 0 < xs.length := List.length_pos.mpr h
  have hm : k % xs.length < xs.length := Nat.mod_lt _ hl
  refine ⟨xs.get ⟨k % xs.length, hm⟩, List.get?_eq_get hm, List.get_mem _ _ _⟩

/-- C10: whenever `moves` is non-empty, `random_move` yields one of its
elements (for either selector and any draw of the random source); whenever
`moves` is empty, the modelled `choose` yields `none` — the value the Rust
code `unwrap`s, i.e. the panic. -/
theorem C10_random_move (g : Game) (k : Nat) :
    (Ai.moves g ≠ [] → ∃ p, Ai.random_move g k = some p ∧ p ∈ Ai.moves g) ∧
    (Ai.moves g = [] → Ai.random_move g k = none) ∧
    (CoreAi.moves g ≠ [] → ∃ p, CoreAi.random_move g k = some p ∧ p ∈ CoreAi.moves g) ∧
    (CoreAi.moves g = [] → CoreAi.random_move g k = none) := by
  refine ⟨fun h => ?_, fun h => ?_, fun h => ?_, fun h => ?_⟩
  · exact get_mod_length_mem _ k h
  · simp [Ai.random_move, h]
  · exact get_mod_length_mem _ k h
  · simp [CoreAi.random_move, h]

/-- C10 witness: on the one-empty-cell live game both selectors offer the
last cell and `random_move` returns it; on the finished S5 game both
selectors are empty and the modelled `choose` is `none`. -/
theorem C10_witness :
    (∃ p, Ai.random_move gNearDraw 0 = some p ∧ p ∈ Ai.moves gNearDraw) ∧
    Ai.random_move gXWin 3 = none ∧
    (∃ p, CoreAi.random_move gNearDraw 1 = some p ∧ p ∈ CoreAi.moves gNearDraw) ∧
    CoreAi.random_move gXWin 7 = none := by
  exact ⟨(C10_random_move gNearDraw 0).1 (by decide),
    (C10_random_move gXWin 3).2.1 (by decide),
    (C10_random_move gNearDraw 1).2.2.1 (by decide),
    (C10_random_move gXWin 7).2.2.2 (by decide)⟩

/-! ## Grid and game infrastructure lemmas -/

/-- Row-major index and position conversions are mutually inverse. -/
theorem toIndex_toPos : ∀ i : Fin 9, toIndex (toPos i) = i := by
  decide

/-- Positions produced from indices are in bounds. -/
theorem in_bounds_toPos : ∀ i : Fin 9, Grid.in_bounds (toPos i) = true := by
  decide

/-- Membership in the unmarked-position traversal. -/
theorem mem_unmarked_positions {g : Grid} {p : Position} :
    p ∈ g.unmarked_positions ↔ ∃ i : Fin 9, g.cells i = none ∧ p = toPos i := by
  constructor
  · intro h
    rcases List.mem_filterMap.mp h with ⟨i, -, hi⟩
    by_cases hc : (g.cells i).isNone
    · rw [if_pos hc] at hi
      exact ⟨i, Option.isNone_iff_eq_none.mp hc, (Option.some_inj.mp hi).symm⟩
    · rw [if_neg hc] at hi
      cases hi
  · rintro ⟨i, hc, rfl⟩
    exact List.mem_filterMap.mpr
      ⟨i, List.mem_finRange i, by rw [if_pos (Option.isNone_iff_eq_none.mpr hc)]⟩

/-- An unmarked position denotes an empty, in-bounds cell. -/
theorem unmarked_positions_spec {g : Grid} {p : Position}
    (h : p ∈ g.unmarked_positions) :
    g.cells (toIndex p) = none ∧ Grid.in_bounds p = true := by
  rcases mem_unmarked_positions.mp h with ⟨i, hc, rfl⟩
  rw [toIndex_toPos]
  exact ⟨hc, in_bounds_toPos i⟩

/-- The number of unmarked cells of a grid. -/
def Grid.unmarkedCount (g : Grid) : Nat := g.unmarked_positions.length

/-- Generic: the length of a `filterMap` counts the inputs mapped to
`some`. -/
theorem length_filterMap_eq_countP {α β : Type} (f : α → Option β) (l : List α) :
    (l.filterMap f).length = l.countP (fun a => (f a).isSome) := by
  induction l with
  | nil => rfl
  | cons a l ih =>
    rw [List.filterMap_cons, List.countP_cons]
    rcases h : f a with _ | b
    · simpa [h] using ih
    · simpa [h] using ih

/-- The unmarked count is the number of empty cells. -/
theorem unmarkedCount_eq_countP (g : Grid) :
    g.unmarkedCount = (List.finRange 9).countP (fun i => (g.cells i).isNone) := by
  rw [Grid.unmarkedCount, Grid.unmarked_positions, length_filterMap_eq_countP]
  refine List.countP_congr fun i _ => ?_
  by_cases hc : (g.cells i).isNone
  · simp [hc]
  · simp [hc]

/-- At most nine cells are ever unmarked. -/
theorem unmarkedCount_le_nine (g : Grid) : g.unmarkedCount ≤ 9 := by
  have := List.length_filterMap_le
    (fun i : Fin 9 => if (g.cells i).isNone then some (toPos i) else none)
    (List.finRange 9)
  simpa [Grid.unmarkedCount, Grid.unmarked_positions] using this

/-- Marking an empty cell decreases the unmarked count by one. -/
theorem unmarkedCount_mark (g : Grid) (p : Position) (m : Mark)
    (h : g.cells (toIndex p) = none) :
    (g.mark p m).unmarkedCount + 1 = g.unmarkedCount := by
  rw [unmarkedCount_eq_countP, unmarkedCount_eq_countP]
  have hperm := List.perm_cons_erase (List.mem_finRange (toIndex p))
  rw [List.Perm.countP_eq _ hperm, List.Perm.countP_eq _ hperm,
    List.countP_cons, List.countP_cons]
  have h1 : (((g.mark p m).cells (toIndex p)).isNone) = false := by
    simp [Grid.mark, Function.update_same]
  have h2 : ((g.cells (toIndex p)).isNone) = true := by simp [h]
  rw [h1, h2]
  have hcong : ((List.finRange 9).erase (toIndex p)).countP
        (fun i => ((g.mark p m).cells i).isNone)
      = ((List.finRange 9).erase (toIndex p)).countP
        (fun i => (g.cells i).isNone) := by
    refine List.countP_congr fun i hi => ?_
    have hne : i ≠ toIndex p :=
      ((List.nodup_finRange 9).mem_erase_iff.mp hi).1
    simp [Grid.mark, Function.update_noteq hne]
  rw [hcong]
  simp

/-- `is_playing` answers whether the state is `Play`. -/
theorem is_playing_iff (g : Game) : g.is_playing = true ↔ g.state = State.Play := by
  simp [Game.is_playing]

/-- A game is in play exactly when it has no outcome. -/
theorem outcome_none_iff (g : Game) : g.outcome = none ↔ g.is_playing = true := by
  rcases hs : g.state with _ | o <;> simp [Game.outcome, Game.is_playing, hs]

/-- A finished game carries an outcome. -/
theorem outcome_of_game_over (g : Game) (h : g.is_playing = false) :
    ∃ o, g.outcome = some o := by
  rcases hs : g.state with _ | o
  · rw [(is_playing_iff g).mpr hs] at h
    cases h
  · exact ⟨o, by simp [Game.outcome, hs]⟩

/-- A grid the referee leaves in play has an empty cell. -/
theorem evaluate_none_empty_cell {gr : Grid} (h : SpecReferee.evaluate gr = none) :
    ∃ i, gr.cells i = none := by
  unfold SpecReferee.evaluate at h
  split at h
  · cases h
  · split at h
    · cases h
    · rename_i hall
      have : ¬ ∀ c ∈ gr.cellsList, c.isSome = true := by
        simpa [List.all_eq_true] using hall
      push_neg at this
      rcases this with ⟨c, hc, hcs⟩
      rcases List.mem_map.mp hc with ⟨i, -, rfl⟩
      exact ⟨i, cell_not_isSome _ hcs⟩

/-- A grid the referee leaves in play has no completed arrangement. -/
theorem evaluate_none_no_line {gr : Grid} (h : SpecReferee.evaluate gr = none) :
    ∀ t ∈ Referee.ARRANGEMENTS, SpecReferee.same_non_empty gr t = false := by
  intro t ht
  unfold SpecReferee.evaluate at h
  split at h
  · cases h
  · rename_i hany
    rcases hsn : SpecReferee.same_non_empty gr t
    · rfl
    · exact absurd (List.any_eq_true.mpr ⟨t, ht, hsn⟩) (by simp_all)

/-- A win verdict exhibits a completed arrangement. -/
theorem evaluate_win_line {gr : Grid} (h : SpecReferee.evaluate gr = some .Win) :
    ∃ t ∈ Referee.ARRANGEMENTS, SpecReferee.same_non_empty gr t = true := by
  unfold SpecReferee.evaluate at h
  split at h
  · rename_i hany
    exact List.any_eq_true.mp hany
  · split at h <;> cases h

/-- A live well-formed game always has an available position. -/
theorem avail_ne_nil {g : Game} (hw : Game.Wf g) (hp : g.is_playing = true) :
    g.available_positions ≠ [] := by
  have hev := hw ((is_playing_iff g).mp hp)
  rcases evaluate_none_empty_cell hev with ⟨i, hi⟩
  exact List.ne_nil_of_mem
    (mem_unmarked_positions.mpr ⟨i, hi, rfl⟩)

/-- `play` on an available position of a live game takes the unchecked
path. -/
theorem playG_eq_unchecked {g : Game} {p : Position} (hp : g.is_playing = true)
    (hm : p ∈ g.available_positions) : g.playG p = g.unchecked_play p := by
  rcases unmarked_positions_spec hm with ⟨hc, hb⟩
  have hu : g.grid.is_unmarked_at p = true := by
    simp [Grid.is_unmarked_at, hc]
  simp [Game.playG, Game.play, hp, hb, hu]

/-- An unchecked play whose marked grid the referee leaves open swaps the
turn and keeps playing. -/
theorem unchecked_play_eval_none {g : Game} {p : Position}
    (hev : SpecReferee.evaluate (g.grid.mark p g.turn) = none) :
    g.unchecked_play p = { g with grid := g.grid.mark p g.turn, turn := g.turn.swap } := by
  unfold Game.unchecked_play
  simp only [hev]

/-- An unchecked play whose marked grid the referee settles finishes the
game keeping the turn. -/
theorem unchecked_play_eval_some {g : Game} {p : Position} {o : Referee.Outcome}
    (hev : SpecReferee.evaluate (g.grid.mark p g.turn) = some o) :
    g.unchecked_play p
      = { g with grid := g.grid.mark p g.turn, state := .GameOver o } := by
  unfold Game.unchecked_play
  simp only [hev]

/-- The grid after an unchecked play, whatever the referee says. -/
theorem unchecked_play_grid (g : Game) (p : Position) :
    (g.unchecked_play p).grid = g.grid.mark p g.turn := by
  rcases hev : SpecReferee.evaluate (g.grid.mark p g.turn) with _ | o
  · rw [unchecked_play_eval_none hev]
  · rw [unchecked_play_eval_some hev]

/-- Well-formedness survives any `play`. -/
theorem Wf_playG (g : Game) (p : Position) (hw : Game.Wf g) : Game.Wf (g.playG p) := by
  unfold Game.playG Game.play
  by_cases hp : g.is_playing = true
  · by_cases hb : Grid.in_bounds p = true
    · by_cases hu : g.grid.is_unmarked_at p = true
      · simp only [hp, hb, hu, if_true]
        rcases hev : SpecReferee.evaluate (g.grid.mark p g.turn) with _ | o
        · rw [unchecked_play_eval_none hev]
          intro _
          simpa using hev
        · rw [unchecked_play_eval_some hev]
          intro hst
          simp at hst
      · simpa [hp, hb, hu] using hw
    · simpa [hp, hb] using hw
  · simpa [hp] using hw

/-- Fresh games are well formed. -/
theorem Wf_start (f : Mark) : Game.Wf (Game.start f) := by
  intro _
  show SpecReferee.evaluate Grid.new = none
  decide

/-- Playing an available position of a live game removes exactly that cell
from the unmarked count. -/
theorem unmarkedCount_playG {g : Game} {p : Position} (hp : g.is_playing = true)
    (hm : p ∈ g.available_positions) :
    (g.playG p).grid.unmarkedCount + 1 = g.grid.unmarkedCount := by
  rw [playG_eq_unchecked hp hm, unchecked_play_grid]
  exact unmarkedCount_mark _ _ _ (unmarked_positions_spec hm).1

/-- The available positions are the grid's unmarked positions and number
`unmarkedCount`. -/
theorem avail_length (g : Game) :
    g.available_positions.length = g.grid.unmarkedCount := rfl

/-! ## C7: a reachable win always exhibits a completed arrangement -/

/-- A triple is `same_non_empty` exactly when some mark fills it. -/
theorem same_non_empty_iff (gr : Grid) (t : Fin 9 × Fin 9 × Fin 9) :
    SpecReferee.same_non_empty gr t = true ↔
      ∃ m : Mark, gr.cells t.1 = some m ∧ gr.cells t.2.1 = some m ∧
        gr.cells t.2.2 = some m := by
  constructor
  · intro h
    have h' : (gr.cells t.1).isSome = true ∧ gr.cells t.1 = gr.cells t.2.1 ∧
        gr.cells t.2.1 = gr.cells t.2.2 := by
      simpa [SpecReferee.same_non_empty, Bool.and_eq_true, beq_iff_eq, and_assoc] using h
    rcases h' with ⟨hs, h12, h23⟩
    rcases h1 : gr.cells t.1 with _ | m1
    · rw [h1] at hs
      cases hs
    · exact ⟨m1, rfl, by rw [← h12]; exact h1, by rw [← h23, ← h12]; exact h1⟩
  · rintro ⟨m, hm1, hm2, hm3⟩
    simp [SpecReferee.same_non_empty, hm1, hm2, hm3]

/-- A triple completed by updating one cell either already was complete or
runs through the updated cell, so its mark is the one just placed. -/
theorem new_line_marker {gr : Grid} {p : Position} {m : Mark}
    {t : Fin 9 × Fin 9 × Fin 9}
    (hold : SpecReferee.same_non_empty gr t = false)
    (hnew : SpecReferee.same_non_empty (gr.mark p m) t = true) :
    (gr.mark p m).cells t.1 = some m ∧ (gr.mark p m).cells t.2.1 = some m ∧
      (gr.mark p m).cells t.2.2 = some m := by
  rcases (same_non_empty_iff _ _).mp hnew with ⟨m', h1, h2, h3⟩
  by_cases hi : toIndex p = t.1 ∨ toIndex p = t.2.1 ∨ toIndex p = t.2.2
  · have hcell : (gr.mark p m).cells (toIndex p) = some m := by
      simp [Grid.mark, Function.update_same]
    have hmm : m' = m := by
      rcases hi with hi | hi | hi
      · rw [hi] at hcell
        exact Option.some_inj.mp (h1 ▸ hcell.symm).symm
      · rw [hi] at hcell
        exact Option.some_inj.mp (h2 ▸ hcell.symm).symm
      · rw [hi] at hcell
        exact Option.some_inj.mp (h3 ▸ hcell.symm).symm
    rw [hmm] at h1 h2 h3
    exact ⟨h1, h2, h3⟩
  · push_neg at hi
    rcases hi with ⟨n1, n2, n3⟩
    have e1 : (gr.mark p m).cells t.1 = gr.cells t.1 := by
      simp [Grid.mark, Function.update_noteq (Ne.symm n1)]
    have e2 : (gr.mark p m).cells t.2.1 = gr.cells t.2.1 := by
      simp [Grid.mark, Function.update_noteq (Ne.symm n2)]
    have e3 : (gr.mark p m).cells t.2.2 = gr.cells t.2.2 := by
      simp [Grid.mark, Function.update_noteq (Ne.symm n3)]
    have : SpecReferee.same_non_empty gr t = true :=
      (same_non_empty_iff _ _).mpr ⟨m', e1 ▸ h1, e2 ▸ h2, e3 ▸ h3⟩
    rw [this] at hold
    cases hold

/-- The inductive invariant for C7: the game is well formed and a won game
shows a completed arrangement in the winner's mark. -/
def WinInv (g : Game) : Prop :=
  Game.Wf g ∧
    (g.state = State.GameOver .Win →
      ∃ t ∈ Referee.ARRANGEMENTS,
        g.grid.cells t.1 = some g.turn ∧ g.grid.cells t.2.1 = some g.turn ∧
          g.grid.cells t.2.2 = some g.turn)

/-- The invariant holds at the start. -/
theorem WinInv_start (f : Mark) : WinInv (Game.start f) :=
  ⟨Wf_start f, fun h => by cases h⟩

/-- One `play` step preserves the invariant. -/
theorem WinInv_playG (g : Game) (p : Position) (h : WinInv g) : WinInv (g.playG p) := by
  rcases h with ⟨hw, hwin⟩
  refine ⟨Wf_playG g p hw, ?_⟩
  unfold Game.playG Game.play
  by_cases hp : g.is_playing = true
  · by_cases hb : Grid.in_bounds p = true
    · by_cases hu : g.grid.is_unmarked_at p = true
      · simp only [hp, hb, hu, if_true]
        have hev0 : SpecReferee.evaluate g.grid = none := hw ((is_playing_iff g).mp hp)
        rcases hev : SpecReferee.evaluate (g.grid.mark p g.turn) with _ | o
        · rw [unchecked_play_eval_none hev]
          intro hst
          simp only at hst
          rw [(is_playing_iff g).mp hp] at hst
          cases hst
        · rw [unchecked_play_eval_some hev]
          rcases o with _ | _
          · intro _
            rcases evaluate_win_line hev with ⟨t, ht, hsn⟩
            have hold := evaluate_none_no_line hev0 t ht
            exact ⟨t, ht, new_line_marker hold hsn⟩
          · intro hst
            simp at hst
      · simpa [hp, hb, hu] using hwin
    · simpa [hp, hb] using hwin
  · simpa [hp] using hwin

/-- The invariant is carried along any play sequence. -/
theorem WinInv_playAll (ps : List Position) :
    ∀ g : Game, WinInv g → WinInv (g.playAll ps) := by
  induction ps with
  | nil => exact fun g h => h
  | cons p ps ih => exact fun g h => ih _ (WinInv_playG g p h)

/-- C7 (amended): every reachable game that ended in a win has at least
one arrangement fully occupied by the winner's mark (the mark `turn` holds
in the game-over state). -/
theorem C7_win_has_line (g : Game) (hr : Game.Reachable g)
    (hwin : g.state = State.GameOver .Win) :
    ∃ t ∈ Referee.ARRANGEMENTS,
      g.grid.cells t.1 = some g.turn ∧ g.grid.cells t.2.1 = some g.turn ∧
        g.grid.cells t.2.2 = some g.turn := by
  rcases hr with ⟨f, ps, rfl⟩
  exact (WinInv_playAll ps _ (WinInv_start f)).2 hwin

/-- C7 witness: the scenario-S5 win exhibits its completed arrangement. -/
theorem C7_witness :
    ∃ t ∈ Referee.ARRANGEMENTS,
      gXWin.grid.cells t.1 = some gXWin.turn ∧
        gXWin.grid.cells t.2.1 = some gXWin.turn ∧
          gXWin.grid.cells t.2.2 = some gXWin.turn :=
  C7_win_has_line gXWin
    ⟨Mark.X, [(1, 1), (0, 2), (2, 0), (1, 2), (2, 2), (2, 1), (0, 0)], rfl⟩
    (by decide)

/-- C7 counterexample: the game `gDoubleWin` is reachable, ends in a win,
and two distinct arrangements are fully occupied by the winner's mark, so
"exactly one arrangement" is false. -/
theorem C7_counterexample :
    Game.Reachable gDoubleWin ∧
      gDoubleWin.state = State.GameOver .Win ∧
      Referee.ARRANGEMENTS.countP
          (fun t =>
            gDoubleWin.grid.cells t.1 == some gDoubleWin.turn &&
              gDoubleWin.grid.cells t.2.1 == some gDoubleWin.turn &&
                gDoubleWin.grid.cells t.2.2 == some gDoubleWin.turn) = 2 :=
  ⟨⟨Mark.X, [(0, 0), (1, 0), (1, 2), (1, 1), (2, 2), (2, 0), (0, 1), (2, 1), (0, 2)], rfl⟩,
    by decide, by decide⟩

/-! ## Pair order lemmas for the tie-break combine -/

namespace Spec

/-- Negating a pair twice is the identity. -/
theorem neg1_neg1 (a : Int × Nat) : neg1 (neg1 a) = a := by
  simp [neg1]

/-- The tie-break order is reflexive. -/
theorem GeLex_refl (a : Int × Nat) : GeLex a a := Or.inr ⟨rfl, le_refl _⟩

/-- The tie-break order is transitive. -/
theorem GeLex_trans {a b c : Int × Nat} (h1 : GeLex a b) (h2 : GeLex b c) :
    GeLex a c := by
  unfold GeLex at h1 h2 ⊢
  omega

/-- `combine` returns a pair at least as good as its left argument. -/
theorem combine_ge_left (a b : Int × Nat) : GeLex (combine a b) a := by
  unfold combine GeLex
  split_ifs <;> omega

/-- `combine` returns a pair at least as good as its right argument. -/
theorem combine_ge_right (a b : Int × Nat) : GeLex (combine a b) b := by
  unfold combine GeLex
  split_ifs <;> omega

/-- A `combine` fold dominates its seed and every element. -/
theorem foldl_combine_ge (qs : List (Int × Nat)) :
    ∀ q : Int × Nat, GeLex (qs.foldl combine q) q ∧
      ∀ x ∈ qs, GeLex (qs.foldl combine q) x := by
  induction qs with
  | nil => exact fun q => ⟨GeLex_refl q, by simp⟩
  | cons x xs ih =>
    intro q
    rw [List.foldl_cons]
    refine ⟨GeLex_trans (ih (combine q x)).1 (combine_ge_left q x), ?_⟩
    intro y hy
    rcases List.mem_cons.mp hy with rfl | hy
    · exact GeLex_trans (ih (combine q y)).1 (combine_ge_right q y)
    · exact (ih (combine q x)).2 y hy

/-- The value component of `combine` is the larger value. -/
theorem combine_fst (a b : Int × Nat) : (combine a b).1 = Max.max a.1 b.1 := by
  unfold combine
  split_ifs <;> omega

end Spec

/-! ## Pair views of the search values -/

namespace Ai

/-- The `(score, depth)` view of a search value. -/
def Value.pair (v : Value) : Int × Nat := (v.score, v.depth)

/-- Overwriting the positions leaves the pair view unchanged. -/
theorem pair_set_positions (v : Value) (l : List Position) :
    ({ v with positions := l } : Value).pair = v.pair := rfl

/-- `Value.max` realizes the spec's `combine` on the pair view. -/
theorem max_pair (v w : Value) : (v.max w).pair = Spec.combine v.pair w.pair := by
  unfold Value.max Spec.combine Value.pair
  dsimp only
  split_ifs <;> first | rfl | omega

/-- `Value.min` realizes the negated `combine` on the pair view. -/
theorem min_pair_neg (v w : Value) :
    Spec.neg1 ((v.min w).pair) = Spec.combine (Spec.neg1 v.pair) (Spec.neg1 w.pair) := by
  unfold Value.min Spec.combine Spec.neg1 Value.pair
  dsimp only
  split_ifs <;> first | rfl | omega

/-- `Value.max` preserves the "every recorded position realizes the pair"
invariant. -/
theorem max_invariant {P : Position → Prop} {f : Position → Int × Nat}
    (v w : Value)
    (hv : ∀ x ∈ v.positions, P x ∧ f x = v.pair)
    (hw : ∀ x ∈ w.positions, P x ∧ f x = w.pair) :
    ∀ x ∈ (v.max w).positions, P x ∧ f x = (v.max w).pair := by
  unfold Value.max
  split_ifs with h1 h2 h3 h4
  · exact hv
  · exact hw
  · exact hv
  · exact hw
  · intro x hx
    have hpair : w.pair = v.pair := by
      unfold Value.pair
      refine Prod.ext ?_ ?_ <;> dsimp only <;> omega
    rcases List.mem_append.mp (by simpa using hx) with hx | hx
    · exact ⟨(hv x hx).1, (hv x hx).2⟩
    · exact ⟨(hw x hx).1, by rw [(hw x hx).2, hpair]; rfl⟩

end Ai

/-! ## Case lemmas for the searches -/

/-- Spec search on a terminal game. -/
theorem Spec.negamax_terminal {g : Game} {o : Referee.Outcome} (ho : g.outcome = some o)
    (fuel depth : Nat) : Spec.negamax fuel g depth = (-(Spec.score o), depth) := by
  cases fuel <;> (unfold Spec.negamax; rw [ho])

/-- Spec search on a live game: negate and combine the children. -/
theorem Spec.negamax_playing {g : Game} (ho : g.outcome = none) (fuel' depth : Nat) :
    Spec.negamax (fuel' + 1) g depth =
      match (g.available_positions).map
          (fun p => Spec.neg1 (Spec.negamax fuel' (g.playG p) (depth + 1))) with
      | [] => (0, depth)
      | q :: qs => qs.foldl Spec.combine q := by
  conv_lhs => unfold Spec.negamax
  rw [ho]

/-- Spec minimax value on a terminal game. -/
theorem Spec.mmValue_terminal {g : Game} {o : Referee.Outcome} (ho : g.outcome = some o)
    (fuel : Nat) : Spec.mmValue fuel g = -(Spec.score o) := by
  cases fuel <;> (unfold Spec.mmValue; rw [ho])

/-- Spec minimax value on a live game. -/
theorem Spec.mmValue_playing {g : Game} (ho : g.outcome = none) (fuel' : Nat) :
    Spec.mmValue (fuel' + 1) g =
      match (g.available_positions).map (fun p => -(Spec.mmValue fuel' (g.playG p))) with
      | [] => 0
      | q :: qs => qs.foldl Max.max q := by
  conv_lhs => unfold Spec.mmValue
  rw [ho]

/-- `maximize` on a finished game. -/
theorem Ai.maximize_game_over (fuel : Nat) {g : Game} (depth : Nat)
    (hp : g.is_playing = false) :
    Ai.maximize fuel g depth = Ai.Value.new (Ai.min_score g) depth := by
  cases fuel <;> (unfold Ai.maximize; rw [if_neg (by simp [hp])])

/-- `minimize` on a finished game. -/
theorem Ai.minimize_game_over (fuel : Nat) {g : Game} (depth : Nat)
    (hp : g.is_playing = false) :
    Ai.minimize fuel g depth = Ai.Value.new (Ai.max_score g) depth := by
  cases fuel <;> (unfold Ai.minimize; rw [if_neg (by simp [hp])])

/-- `maximize` on a live game folds `Value.max` over the children. -/
theorem Ai.maximize_playing {g : Game} (fuel' depth : Nat) (hp : g.is_playing = true) :
    Ai.maximize (fuel' + 1) g depth =
      ((g.available_positions).foldl
        (fun acc pos =>
          let next := { Ai.minimize fuel' (g.playG pos) (depth + 1) with positions := [pos] }
          some (match acc with
                | none => next
                | some v => v.max next))
        none).getD (Ai.Value.new 0 depth) := by
  unfold Ai.maximize
  rw [if_pos hp]

/-- `minimize` on a live game folds `Value.min` over the children. -/
theorem Ai.minimize_playing {g : Game} (fuel' depth : Nat) (hp : g.is_playing = true) :
    Ai.minimize (fuel' + 1) g depth =
      ((g.available_positions).foldl
        (fun acc pos =>
          let next := { Ai.maximize fuel' (g.playG pos) (depth + 1) with positions := [pos] }
          some (match acc with
                | none => next
                | some v => v.min next))
        none).getD (Ai.Value.new 0 depth) := by
  unfold Ai.minimize
  rw [if_pos hp]

/-! ## Folding the children -/

/-- Folding the tagged children with `Value.max` from a seed: the result's
pair is the `combine` fold of the children's pairs, and every recorded
position realizes the result pair. -/
theorem Ai.foldl_max_node (childV : Position → Ai.Value) (P : Position → Prop)
    (ps : List Position) (hP : ∀ p ∈ ps, P p) (acc : Ai.Value)
    (hacc : ∀ x ∈ acc.positions, P x ∧ (childV x).pair = acc.pair) :
    ∃ r, ps.foldl
        (fun acc pos =>
          let next := { childV pos with positions := [pos] }
          some (match acc with
                | none => next
                | some v => v.max next)) (some acc) = some r ∧
      r.pair = (ps.map (fun p => (childV p).pair)).foldl Spec.combine acc.pair ∧
      ∀ x ∈ r.positions, P x ∧ (childV x).pair = r.pair := by
  induction ps generalizing acc with
  | nil => exact ⟨acc, rfl, rfl, hacc⟩
  | cons p ps ih =>
    rw [List.foldl_cons, List.map_cons, List.foldl_cons]
    dsimp only
    have hsing : ∀ x ∈ ({ childV p with positions := [p] } : Ai.Value).positions,
        P x ∧ (childV x).pair = ({ childV p with positions := [p] } : Ai.Value).pair := by
      intro x hx
      have hx' : x = p := by simpa using hx
      rw [hx']
      exact ⟨hP p (List.mem_cons_self _ _), rfl⟩
    obtain ⟨r, hr, h1, h2⟩ := ih (fun q hq => hP q (List.mem_cons_of_mem _ hq))
      (acc.max { childV p with positions := [p] })
      (Ai.max_invariant acc _ hacc hsing)
    refine ⟨r, hr, ?_, h2⟩
    rw [h1, Ai.max_pair]
    rfl

/-- Starting the maximizing fold from `none` on a non-empty list. -/
theorem Ai.foldl_max_root (childV : Position → Ai.Value) (P : Position → Prop)
    (p : Position) (ps : List Position) (hP : ∀ q ∈ p :: ps, P q) :
    ∃ r, (p :: ps).foldl
        (fun acc pos =>
          let next := { childV pos with positions := [pos] }
          some (match acc with
                | none => next
                | some v => v.max next)) none = some r ∧
      r.pair = (ps.map (fun q => (childV q).pair)).foldl Spec.combine (childV p).pair ∧
      ∀ x ∈ r.positions, P x ∧ (childV x).pair = r.pair := by
  rw [List.foldl_cons]
  dsimp only
  have hsing : ∀ x ∈ ({ childV p with positions := [p] } : Ai.Value).positions,
      P x ∧ (childV x).pair = ({ childV p with positions := [p] } : Ai.Value).pair := by
    intro x hx
    have hx' : x = p := by simpa using hx
    rw [hx']
    exact ⟨hP p (List.mem_cons_self _ _), rfl⟩
  obtain ⟨r, hr, h1, h2⟩ := Ai.foldl_max_node childV P ps
    (fun q hq => hP q (List.mem_cons_of_mem _ hq)) _ hsing
  refine ⟨r, hr, ?_, h2⟩
  rw [h1]
  rfl

/-- Folding the tagged children with `Value.min` from a seed, on the
negated pair view. -/
theorem Ai.foldl_min_node (childV : Position → Ai.Value) (ps : List Position)
    (acc : Ai.Value) :
    ∃ r, ps.foldl
        (fun acc pos =>
          let next := { childV pos with positions := [pos] }
          some (match acc with
                | none => next
                | some v => v.min next)) (some acc) = some r ∧
      Spec.neg1 r.pair
        = (ps.map (fun p => Spec.neg1 (childV p).pair)).foldl Spec.combine
            (Spec.neg1 acc.pair) := by
  induction ps generalizing acc with
  | nil => exact ⟨acc, rfl, rfl⟩
  | cons p ps ih =>
    rw [List.foldl_cons, List.map_cons, List.foldl_cons]
    dsimp only
    obtain ⟨r, hr, h1⟩ := ih (acc.min { childV p with positions := [p] })
    refine ⟨r, hr, ?_⟩
    rw [h1, Ai.min_pair_neg]
    rfl

/-- Starting the minimizing fold from `none` on a non-empty list. -/
theorem Ai.foldl_min_root (childV : Position → Ai.Value) (p : Position)
    (ps : List Position) :
    ∃ r, (p :: ps).foldl
        (fun acc pos =>
          let next := { childV pos with positions := [pos] }
          some (match acc with
                | none => next
                | some v => v.min next)) none = some r ∧
      Spec.neg1 r.pair
        = (ps.map (fun q => Spec.neg1 (childV q).pair)).foldl Spec.combine
            (Spec.neg1 (childV p).pair) := by
  rw [List.foldl_cons]
  dsimp only
  obtain ⟨r, hr, h1⟩ := Ai.foldl_min_node childV ps _
  refine ⟨r, hr, ?_⟩
  rw [h1]
  rfl

/-- A play from a live well-formed game stays well formed and strictly
shrinks the unmarked count. -/
theorem child_facts {g : Game} (hw : Game.Wf g) (hp : g.is_playing = true)
    (fuel : Nat) (hc : g.grid.unmarkedCount ≤ fuel + 1) :
    ∀ q ∈ g.available_positions,
      Game.Wf (g.playG q) ∧ (g.playG q).grid.unmarkedCount ≤ fuel := by
  intro q hq
  refine ⟨Wf_playG g q hw, ?_⟩
  have h1 := unmarkedCount_playG hp hq
  omega

/-- The `ai.rs` searches compute the spec's negamax pair: `maximize`
directly and `minimize` up to the perspective change. -/
theorem maximize_minimize_spec (fuel : Nat) :
    ∀ (g : Game) (depth : Nat), Game.Wf g → g.grid.unmarkedCount ≤ fuel →
      (Ai.maximize fuel g depth).pair = Spec.negamax fuel g depth ∧
      Spec.neg1 ((Ai.minimize fuel g depth).pair) = Spec.negamax fuel g depth := by
  induction fuel with
  | zero =>
    intro g depth hw hc
    by_cases hp : g.is_playing = true
    · exfalso
      have h1 := avail_ne_nil hw hp
      have h2 : g.available_positions.length = g.grid.unmarkedCount := avail_length g
      exact h1 (List.length_eq_zero.mp (by omega))
    · have hp' : g.is_playing = false := by simpa using hp
      rcases outcome_of_game_over g hp' with ⟨o, ho⟩
      have hms : Ai.max_score g = Spec.score o := by
        cases o <;> simp [Ai.max_score, ho, Spec.score]
      rw [Spec.negamax_terminal ho, Ai.maximize_game_over 0 depth hp',
        Ai.minimize_game_over 0 depth hp']
      constructor
      · dsimp [Ai.Value.pair, Ai.Value.new, Ai.min_score]
        rw [hms]
      · dsimp [Ai.Value.pair, Ai.Value.new, Spec.neg1]
        rw [hms]
  | succ fuel ih =>
    intro g depth hw hc
    by_cases hp : g.is_playing = true
    · have ho : g.outcome = none := (outcome_none_iff g).mpr hp
      rcases List.exists_cons_of_ne_nil (avail_ne_nil hw hp) with ⟨p, ps, hcons⟩
      have hchild := child_facts hw hp fuel hc
      have hmem : ∀ q ∈ ps, q ∈ g.available_positions := fun q hq => by
        rw [hcons]
        exact List.mem_cons_of_mem _ hq
      have hpmem : p ∈ g.available_positions := by
        rw [hcons]
        exact List.mem_cons_self _ _
      constructor
      · rw [Ai.maximize_playing fuel depth hp, hcons]
        obtain ⟨r, hr, h1, -⟩ := Ai.foldl_max_root
          (fun q => Ai.minimize fuel (g.playG q) (depth + 1))
          (fun q => q ∈ g.available_positions) p ps
          (by rw [← hcons]; exact fun q hq => hq)
        rw [hr]
        simp only [Option.getD_some]
        rw [h1, Spec.negamax_playing ho fuel depth, hcons, List.map_cons]
        dsimp only
        have hpair : ∀ q ∈ g.available_positions,
            (Ai.minimize fuel (g.playG q) (depth + 1)).pair
              = Spec.neg1 (Spec.negamax fuel (g.playG q) (depth + 1)) := by
          intro q hq
          have h2 := (ih (g.playG q) (depth + 1) (hchild q hq).1 (hchild q hq).2).2
          rw [← h2, Spec.neg1_neg1]
        rw [List.map_congr_left (fun q hq => hpair q (hmem q hq)), hpair p hpmem]
      · rw [Ai.minimize_playing fuel depth hp, hcons]
        obtain ⟨r, hr, h1⟩ := Ai.foldl_min_root
          (fun q => Ai.maximize fuel (g.playG q) (depth + 1)) p ps
        rw [hr]
        simp only [Option.getD_some]
        rw [h1, Spec.negamax_playing ho fuel depth, hcons, List.map_cons]
        dsimp only
        have hpair : ∀ q ∈ g.available_positions,
            Spec.neg1 ((Ai.maximize fuel (g.playG q) (depth + 1)).pair)
              = Spec.neg1 (Spec.negamax fuel (g.playG q) (depth + 1)) := by
          intro q hq
          rw [(ih (g.playG q) (depth + 1) (hchild q hq).1 (hchild q hq).2).1]
        rw [List.map_congr_left (fun q hq => hpair q (hmem q hq)), hpair p hpmem]
    · have hp' : g.is_playing = false := by simpa using hp
      rcases outcome_of_game_over g hp' with ⟨o, ho⟩
      have hms : Ai.max_score g = Spec.score o := by
        cases o <;> simp [Ai.max_score, ho, Spec.score]
      rw [Spec.negamax_terminal ho, Ai.maximize_game_over (fuel + 1) depth hp',
        Ai.minimize_game_over (fuel + 1) depth hp']
      constructor
      · dsimp [Ai.Value.pair, Ai.Value.new, Ai.min_score]
        rw [hms]
      · dsimp [Ai.Value.pair, Ai.Value.new, Spec.neg1]
        rw [hms]

/-! ## The value component of the spec search is the plain minimax value -/

/-- The value component of a `combine` fold is a `max` fold. -/
theorem foldl_combine_fst (qs : List (Int × Nat)) :
    ∀ q : Int × Nat, (qs.foldl Spec.combine q).1
      = (qs.map Prod.fst).foldl Max.max q.1 := by
  induction qs with
  | nil => exact fun q => rfl
  | cons x xs ih =>
    intro q
    rw [List.foldl_cons, List.map_cons, List.foldl_cons, ih, Spec.combine_fst]

/-- The spec search's value component is the spec minimax value. -/
theorem negamax_fst_mmValue (fuel : Nat) :
    ∀ (g : Game) (depth : Nat), (Spec.negamax fuel g depth).1 = Spec.mmValue fuel g := by
  induction fuel with
  | zero =>
    intro g depth
    rcases ho : g.outcome with _ | o
    · unfold Spec.negamax Spec.mmValue
      rw [ho]
    · rw [Spec.negamax_terminal ho, Spec.mmValue_terminal ho]
  | succ fuel ih =>
    intro g depth
    rcases ho : g.outcome with _ | o
    · rw [Spec.negamax_playing ho fuel depth, Spec.mmValue_playing ho fuel]
      rcases hcons : g.available_positions with _ | ⟨p, ps⟩
      · rfl
      · rw [List.map_cons, List.map_cons]
        dsimp only
        rw [foldl_combine_fst, List.map_map]
        have hfst : ∀ q : Position,
            (Prod.fst ∘ fun q => Spec.neg1 (Spec.negamax fuel (g.playG q) (depth + 1))) q
              = -(Spec.mmValue fuel (g.playG q)) := by
          intro q
          simp only [Function.comp, Spec.neg1]
          rw [ih]
        rw [List.map_congr_left fun q _ => hfst q]
        show _ = List.foldl Max.max (-(Spec.mmValue fuel (g.playG p))) _
        rw [show (Spec.neg1 (Spec.negamax fuel (g.playG p) (depth + 1))).1
            = -(Spec.mmValue fuel (g.playG p)) from hfst p]
    · rw [Spec.negamax_terminal ho, Spec.mmValue_terminal ho]

/-- A `max` fold from a seed within bounds, over elements within bounds,
stays within bounds. -/
theorem foldl_max_bound {lo hi : Int} (qs : List Int) :
    ∀ q : Int, lo ≤ q → q ≤ hi → (∀ x ∈ qs, lo ≤ x ∧ x ≤ hi) →
      lo ≤ qs.foldl Max.max q ∧ qs.foldl Max.max q ≤ hi := by
  induction qs with
  | nil => exact fun q h1 h2 _ => ⟨h1, h2⟩
  | cons x xs ih =>
    intro q h1 h2 hall
    rw [List.foldl_cons]
    have hx := hall x (List.mem_cons_self _ _)
    exact ih (Max.max q x) (le_trans h1 (le_max_left _ _))
      (max_le h2 hx.2) (fun y hy => hall y (List.mem_cons_of_mem _ hy))

/-- The spec minimax value always lies between −2 and 2. -/
theorem mmValue_bound (fuel : Nat) :
    ∀ g : Game, -2 ≤ Spec.mmValue fuel g ∧ Spec.mmValue fuel g ≤ 2 := by
  induction fuel with
  | zero =>
    intro g
    rcases ho : g.outcome with _ | o
    · unfold Spec.mmValue
      rw [ho]
      exact ⟨by decide, by decide⟩
    · rw [Spec.mmValue_terminal ho]
      cases o <;> exact ⟨by decide, by decide⟩
  | succ fuel ih =>
    intro g
    rcases ho : g.outcome with _ | o
    · rw [Spec.mmValue_playing ho fuel]
      rcases hcons : g.available_positions with _ | ⟨p, ps⟩
      · refine ⟨?_, ?_⟩ <;> (simp only [List.map_nil]; omega)
      · rw [List.map_cons]
        dsimp only
        refine foldl_max_bound _ _ ?_ ?_ ?_
        · have := (ih (g.playG p)).2
          omega
        · have := (ih (g.playG p)).1
          omega
        · intro x hx
          rcases List.mem_map.mp hx with ⟨q, -, rfl⟩
          have h1 := (ih (g.playG q)).1
          have h2 := (ih (g.playG q)).2
          exact ⟨by omega, by omega⟩
    · rw [Spec.mmValue_terminal ho]
      cases o <;> exact ⟨by decide, by decide⟩

/-! ## The core negamax computes the spec minimax value -/

/-- `core/ai.rs` negamax on a terminal game. -/
theorem coreNegamax_terminal {g : Game} {o : Referee.Outcome}
    (ho : g.outcome = some o) (fuel : Nat) (color : Int) :
    CoreAi.negamax fuel g color = -(color * CoreAi.score o) := by
  cases fuel <;> (unfold CoreAi.negamax; rw [ho])

/-- `core/ai.rs` negamax on a live game. -/
theorem coreNegamax_playing {g : Game} (ho : g.outcome = none)
    (fuel' : Nat) (color : Int) :
    CoreAi.negamax (fuel' + 1) g color =
      color * ((g.grid.available_positions).foldl
        (fun value pos => Max.max value (color * CoreAi.negamax fuel' (g.playG pos) (-color)))
        (-128)) := by
  conv_lhs => unfold CoreAi.negamax
  rw [ho]

/-- The two outcome scores agree between the iterations and the spec. -/
theorem score_eq (o : Referee.Outcome) : CoreAi.score o = Spec.score o := by
  cases o <;> rfl

/-- The grid traversal named `available_positions` is the game's. -/
theorem grid_avail_eq (g : Game) :
    g.grid.available_positions = g.available_positions := rfl

/-- `core/ai.rs` negamax computes the spec minimax value: directly with
color `+1`, negated with color `−1`. -/
theorem negamax_core_spec (fuel : Nat) :
    ∀ g : Game, Game.Wf g → g.grid.unmarkedCount ≤ fuel →
      CoreAi.negamax fuel g 1 = Spec.mmValue fuel g ∧
      CoreAi.negamax fuel g (-1) = -(Spec.mmValue fuel g) := by
  induction fuel with
  | zero =>
    intro g hw hc
    by_cases hp : g.is_playing = true
    · exfalso
      have h1 := avail_ne_nil hw hp
      have h2 : g.available_positions.length = g.grid.unmarkedCount := avail_length g
      exact h1 (List.length_eq_zero.mp (by omega))
    · rcases outcome_of_game_over g (by simpa using hp) with ⟨o, ho⟩
      rw [coreNegamax_terminal ho 0 1, coreNegamax_terminal ho 0 (-1),
        Spec.mmValue_terminal ho, score_eq]
      constructor <;> ring
  | succ fuel ih =>
    intro g hw hc
    by_cases hp : g.is_playing = true
    · have ho : g.outcome = none := (outcome_none_iff g).mpr hp
      rcases List.exists_cons_of_ne_nil (avail_ne_nil hw hp) with ⟨p, ps, hcons⟩
      have hchild := child_facts hw hp fuel hc
      have hmem : ∀ q ∈ ps, q ∈ g.available_positions := fun q hq => by
        rw [hcons]
        exact List.mem_cons_of_mem _ hq
      have hpmem : p ∈ g.available_positions := by
        rw [hcons]
        exact List.mem_cons_self _ _
      have hfold : ∀ color : Int,
          (∀ q ∈ g.available_positions,
            color * CoreAi.negamax fuel (g.playG q) (-color)
              = -(Spec.mmValue fuel (g.playG q))) →
          (g.grid.available_positions).foldl
            (fun value pos =>
              Max.max value (color * CoreAi.negamax fuel (g.playG pos) (-color)))
            (-128) = Spec.mmValue (fuel + 1) g := by
        intro color hcolor
        rw [← List.foldl_map (fun pos => color * CoreAi.negamax fuel (g.playG pos) (-color))
          Max.max, grid_avail_eq, hcons, List.map_cons, List.foldl_cons,
          Spec.mmValue_playing ho fuel, hcons, List.map_cons]
        dsimp only
        have hhead : color * CoreAi.negamax fuel (g.playG p) (-color)
            = -(Spec.mmValue fuel (g.playG p)) := hcolor p hpmem
        have hbound := (mmValue_bound fuel (g.playG p)).2
        have hbound' := (mmValue_bound fuel (g.playG p)).1
        rw [hhead]
        have hmax : Max.max (-128 : Int) (-(Spec.mmValue fuel (g.playG p)))
            = -(Spec.mmValue fuel (g.playG p)) := by
          rw [max_eq_right]
          omega
        rw [hmax, List.map_congr_left fun q hq => hcolor q (hmem q hq)]
      have h1 : ∀ q ∈ g.available_positions,
          (1 : Int) * CoreAi.negamax fuel (g.playG q) (-1)
            = -(Spec.mmValue fuel (g.playG q)) := by
        intro q hq
        rw [one_mul, (ih (g.playG q) (hchild q hq).1 (hchild q hq).2).2]
      have h2 : ∀ q ∈ g.available_positions,
          (-1 : Int) * CoreAi.negamax fuel (g.playG q) (- -1)
            = -(Spec.mmValue fuel (g.playG q)) := by
        intro q hq
        have := (ih (g.playG q) (hchild q hq).1 (hchild q hq).2).1
        have hn : (- -1 : Int) = 1 := by ring
        rw [hn, this]
        ring
      constructor
      · rw [coreNegamax_playing ho fuel 1, hfold 1 h1, one_mul]
      · rw [coreNegamax_playing ho fuel (-1), hfold (-1) h2]
        ring
    · rcases outcome_of_game_over g (by simpa using hp) with ⟨o, ho⟩
      rw [coreNegamax_terminal ho (fuel + 1) 1, coreNegamax_terminal ho (fuel + 1) (-1),
        Spec.mmValue_terminal ho, score_eq]
      constructor <;> ring

/-! ## Fuel stability of the spec search -/

/-- Any two sufficient fuels give the spec search the same result. -/
theorem negamax_stable (f1 : Nat) :
    ∀ (g : Game) (d : Nat) (f2 : Nat), g.grid.unmarkedCount ≤ f1 →
      g.grid.unmarkedCount ≤ f2 → Spec.negamax f1 g d = Spec.negamax f2 g d := by
  induction f1 with
  | zero =>
    intro g d f2 hc1 hc2
    rcases ho : g.outcome with _ | o
    · have hnil : g.available_positions = [] := by
        have h2 : g.available_positions.length = g.grid.unmarkedCount := avail_length g
        exact List.length_eq_zero.mp (by omega)
      cases f2 with
      | zero => rfl
      | succ f2' =>
        rw [Spec.negamax_playing ho f2' d, hnil]
        unfold Spec.negamax
        rw [ho]
        rfl
    · rw [Spec.negamax_terminal ho, Spec.negamax_terminal ho]
  | succ f1 ih =>
    intro g d f2 hc1 hc2
    rcases ho : g.outcome with _ | o
    · have hp : g.is_playing = true := (outcome_none_iff g).mp ho
      cases f2 with
      | zero =>
        have hnil : g.available_positions = [] := by
          have h2 : g.available_positions.length = g.grid.unmarkedCount := avail_length g
          exact List.length_eq_zero.mp (by omega)
        rw [Spec.negamax_playing ho f1 d, hnil]
        unfold Spec.negamax
        rw [ho]
        rfl
      | succ f2' =>
        rw [Spec.negamax_playing ho f1 d, Spec.negamax_playing ho f2' d]
        have hcong : ∀ q ∈ g.available_positions,
            Spec.neg1 (Spec.negamax f1 (g.playG q) (d + 1))
              = Spec.neg1 (Spec.negamax f2' (g.playG q) (d + 1)) := by
          intro q hq
          have hdec := unmarkedCount_playG hp hq
          rw [ih (g.playG q) (d + 1) f2' (by omega) (by omega)]
        rw [List.map_congr_left hcong]
    · rw [Spec.negamax_terminal ho, Spec.negamax_terminal ho]

/-! ## Soundness of the depth-aware selector (`ai.rs`) -/

/-- Every position the `ai.rs` selector returns is available and its
`(value, depth)` pair — as the spec's negamax computes it for the subgame —
is at least as good, under the tie-break order, as that of every available
position. -/
theorem moves_old_sound (g : Game) (hw : Game.Wf g) (hp : g.is_playing = true) :
    ∀ x ∈ Ai.moves g,
      x ∈ g.available_positions ∧
      ∀ q ∈ g.available_positions,
        Spec.GeLex (Spec.neg1 (Spec.negamax 9 (g.playG x) 1))
          (Spec.neg1 (Spec.negamax 9 (g.playG q) 1)) := by
  rcases List.exists_cons_of_ne_nil (avail_ne_nil hw hp) with ⟨p, ps, hcons⟩
  have hc : g.grid.unmarkedCount ≤ 9 := unmarkedCount_le_nine _
  have hchild := child_facts hw hp 8 (by omega)
  have hpair : ∀ q ∈ g.available_positions,
      (Ai.minimize 8 (g.playG q) 1).pair = Spec.neg1 (Spec.negamax 9 (g.playG q) 1) := by
    intro q hq
    have h2 := (maximize_minimize_spec 8 (g.playG q) 1 (hchild q hq).1 (hchild q hq).2).2
    have hstab := negamax_stable 8 (g.playG q) 1 9 (hchild q hq).2
      (unmarkedCount_le_nine _)
    rw [← hstab, ← h2, Spec.neg1_neg1]
  intro x hx
  unfold Ai.moves at hx
  rw [show (9 : Nat) = 8 + 1 from rfl, Ai.maximize_playing 8 0 hp, hcons] at hx
  obtain ⟨r, hr, h1, h2⟩ := Ai.foldl_max_root
    (fun q => Ai.minimize 8 (g.playG q) 1)
    (fun q => q ∈ g.available_positions) p ps
    (by rw [← hcons]; exact fun q hq => hq)
  rw [hr] at hx
  simp only [Option.getD_some] at hx
  have hxmem := h2 x hx
  refine ⟨hxmem.1, ?_⟩
  have hgood := Spec.foldl_combine_ge
    (ps.map (fun q => (Ai.minimize 8 (g.playG q) 1).pair))
  have hdom : ∀ y ∈ g.available_positions,
      Spec.GeLex r.pair ((Ai.minimize 8 (g.playG y) 1).pair) := by
    intro y hy
    rw [hcons] at hy
    rcases List.mem_cons.mp hy with rfl | hy
    · rw [h1]
      exact (hgood _).1
    · rw [h1]
      exact (hgood _).2 _ (List.mem_map_of_mem _ hy)
  intro q hq
  rw [← hpair x hxmem.1, ← hpair q hq]
  have hx2 : (Ai.minimize 8 (g.playG x) 1).pair = r.pair := hxmem.2
  rw [hx2]
  exact hdom q hq

/-! ## Soundness of the core selector (`core/ai.rs`) -/

/-- `find_best_moves` on a live game is the scanning fold. -/
theorem CoreAi.find_best_moves_playing {g : Game} (ho : g.outcome = none) (fuel : Nat) :
    CoreAi.find_best_moves fuel g =
      ((g.grid.available_positions).foldl
        (fun (acc : Int × List Position) pos =>
          let next_value := CoreAi.negamax fuel (g.playG pos) (-1)
          if next_value > acc.1 then (next_value, [pos])
          else if next_value == acc.1 then (acc.1, acc.2 ++ [pos])
          else acc)
        (-128, [])).2 := by
  unfold CoreAi.find_best_moves
  rw [ho]

/-- The scanning fold keeps the running maximum together with exactly the
positions attaining it: every recorded position attains the result value,
every scanned position is bounded by it, positions attaining it are
recorded, and the result value is the seed or attained by some scanned
position. -/
theorem fbm_fold_invariant (A : Position → Int) (ps : List Position) :
    ∀ (v : Int) (l : List Position), (∀ x ∈ l, A x = v) →
      ∃ w m, ps.foldl
          (fun (acc : Int × List Position) pos =>
            let next_value := A pos
            if next_value > acc.1 then (next_value, [pos])
            else if next_value == acc.1 then (acc.1, acc.2 ++ [pos])
            else acc)
          (v, l) = (w, m) ∧
        (∀ x ∈ m, (x ∈ ps ∨ x ∈ l) ∧ A x = w) ∧
        (∀ q ∈ ps, A q ≤ w) ∧ v ≤ w ∧
        (w = v → ∀ x ∈ l, x ∈ m) ∧
        (∀ q ∈ ps, A q = w → q ∈ m) ∧
        (w = v ∨ ∃ q ∈ ps, A q = w) := by
  induction ps with
  | nil =>
    intro v l hl
    exact ⟨v, l, rfl, fun x hx => ⟨Or.inr hx, hl x hx⟩, by simp, le_refl v,
      fun _ x hx => hx, by simp, Or.inl rfl⟩
  | cons p ps ih =>
    intro v l hl
    rw [List.foldl_cons]
    dsimp only
    by_cases hgt : A p > v
    · rw [if_pos hgt]
      obtain ⟨w, m, heq, hmem, hall, hle, hkeep, hcomp, hatt⟩ := ih (A p) [p]
        (fun x hx => by rw [List.mem_singleton.mp hx])
      refine ⟨w, m, heq, ?_, ?_, by omega, ?_, ?_, ?_⟩
      · intro x hx
        rcases hmem x hx with ⟨hx1 | hx1, hx2⟩
        · exact ⟨Or.inl (List.mem_cons_of_mem _ hx1), hx2⟩
        · rw [List.mem_singleton.mp hx1]
          exact ⟨Or.inl (List.mem_cons_self _ _), by rw [← List.mem_singleton.mp hx1, hx2]⟩
      · intro q hq
        rcases List.mem_cons.mp hq with rfl | hq
        · omega
        · exact hall q hq
      · intro hvw x hx
        exact absurd hvw (by omega)
      · intro q hq hA
        rcases List.mem_cons.mp hq with rfl | hq
        · exact hkeep hA.symm q (List.mem_singleton.mpr rfl)
        · exact hcomp q hq hA
      · rcases hatt with h | ⟨q, hq, hA⟩
        · exact Or.inr ⟨p, List.mem_cons_self _ _, h.symm⟩
        · exact Or.inr ⟨q, List.mem_cons_of_mem _ hq, hA⟩
    · rw [if_neg hgt]
      by_cases heqv : A p = v
      · rw [if_pos (beq_iff_eq.mpr heqv)]
        obtain ⟨w, m, heq, hmem, hall, hle, hkeep, hcomp, hatt⟩ := ih v (l ++ [p])
          (fun x hx => by
            rcases List.mem_append.mp hx with hx | hx
            · exact hl x hx
            · rw [List.mem_singleton.mp hx]
              exact heqv)
        refine ⟨w, m, heq, ?_, ?_, hle, ?_, ?_, ?_⟩
        · intro x hx
          rcases hmem x hx with ⟨hx1 | hx1, hx2⟩
          · exact ⟨Or.inl (List.mem_cons_of_mem _ hx1), hx2⟩
          · rcases List.mem_append.mp hx1 with hx1 | hx1
            · exact ⟨Or.inr hx1, hx2⟩
            · exact ⟨Or.inl (by rw [List.mem_singleton.mp hx1]; exact List.mem_cons_self _ _), hx2⟩
        · intro q hq
          rcases List.mem_cons.mp hq with rfl | hq
          · omega
          · exact hall q hq
        · intro hvw x hx
          exact hkeep hvw x (List.mem_append.mpr (Or.inl hx))
        · intro q hq hA
          rcases List.mem_cons.mp hq with rfl | hq
          · exact hkeep (by omega) q (List.mem_append.mpr (Or.inr (List.mem_singleton.mpr rfl)))
          · exact hcomp q hq hA
        · rcases hatt with h | ⟨q, hq, hA⟩
          · exact Or.inl h
          · exact Or.inr ⟨q, List.mem_cons_of_mem _ hq, hA⟩
      · rw [if_neg (fun h => heqv (beq_iff_eq.mp h))]
        obtain ⟨w, m, heq, hmem, hall, hle, hkeep, hcomp, hatt⟩ := ih v l hl
        refine ⟨w, m, heq, ?_, ?_, hle, hkeep, ?_, ?_⟩
        · intro x hx
          rcases hmem x hx with ⟨hx1, hx2⟩
          exact ⟨hx1.imp (List.mem_cons_of_mem _) id, hx2⟩
        · intro q hq
          rcases List.mem_cons.mp hq with rfl | hq
          · omega
          · exact hall q hq
        · intro q hq hA
          rcases List.mem_cons.mp hq with rfl | hq
          · exact absurd hA (by omega)
          · exact hcomp q hq hA
        · rcases hatt with h | ⟨q, hq, hA⟩
          · exact Or.inl h
          · exact Or.inr ⟨q, List.mem_cons_of_mem _ hq, hA⟩

/-- With two to eight available positions the core selector searches. -/
theorem CoreAi.moves_default {g : Game}
    (h2 : 2 ≤ g.grid.available_positions.length)
    (h8 : g.grid.available_positions.length ≤ 8) :
    CoreAi.moves g = CoreAi.find_best_moves 9 g := by
  have hn : g.grid.available_positions.length = 2 ∨
      g.grid.available_positions.length = 3 ∨ g.grid.available_positions.length = 4 ∨
      g.grid.available_positions.length = 5 ∨ g.grid.available_positions.length = 6 ∨
      g.grid.available_positions.length = 7 ∨ g.grid.available_positions.length = 8 := by
    omega
  rcases hn with h | h | h | h | h | h | h <;> simp only [CoreAi.moves, h]

/-- With zero, one or nine available positions the core selector returns
the available positions unchanged, without searching. -/
theorem moves_core_shortcut (g : Game)
    (h : g.grid.available_positions.length = 0 ∨ g.grid.available_positions.length = 1 ∨
      g.grid.available_positions.length = 9) :
    CoreAi.moves g = g.grid.available_positions := by
  rcases h with h | h | h <;> simp only [CoreAi.moves, h]

/-- In its searching regime the core selector returns exactly the
available positions maximizing the minimax value of the subgame they lead
to: membership both ways. -/
theorem moves_core_exact (g : Game) (hw : Game.Wf g) (hp : g.is_playing = true)
    (h2 : 2 ≤ g.grid.available_positions.length)
    (h8 : g.grid.available_positions.length ≤ 8) :
    ∀ x, x ∈ CoreAi.moves g ↔
      (x ∈ g.grid.available_positions ∧
        ∀ q ∈ g.grid.available_positions,
          -(Spec.mmValue 9 (g.playG q)) ≤ -(Spec.mmValue 9 (g.playG x))) := by
  have ho : g.outcome = none := (outcome_none_iff g).mpr hp
  have hrew : ∀ q ∈ g.grid.available_positions,
      CoreAi.negamax 9 (g.playG q) (-1) = -(Spec.mmValue 9 (g.playG q)) := by
    intro q hq
    exact (negamax_core_spec 9 (g.playG q) (Wf_playG g q hw) (unmarkedCount_le_nine _)).2
  obtain ⟨w, m, heq, hmem, hall, -, -, hcomp, hatt⟩ := fbm_fold_invariant
    (fun pos => CoreAi.negamax 9 (g.playG pos) (-1))
    g.grid.available_positions (-128) [] (by simp)
  have hmoves : CoreAi.moves g = m := by
    rw [CoreAi.moves_default h2 h8, CoreAi.find_best_moves_playing ho 9, heq]
  intro x
  rw [hmoves]
  constructor
  · intro hx
    rcases hmem x hx with ⟨hx1 | hx1, hx2⟩
    · refine ⟨hx1, ?_⟩
      intro q hq
      have h1 := hall q hq
      rw [hrew q hq] at h1
      rw [hrew x hx1] at hx2
      omega
    · cases hx1
  · rintro ⟨hx1, hmax⟩
    rcases hatt with hv | ⟨q, hq, hA⟩
    · exfalso
      have h1 := hall x hx1
      rw [hrew x hx1] at h1
      have hb := (mmValue_bound 9 (g.playG x)).2
      omega
    · have h1 := hall x hx1
      have h3 := hmax q hq
      rw [hrew x hx1] at h1
      rw [hrew q hq] at hA
      apply hcomp x hx1
      rw [hrew x hx1]
      omega

/-- A better pair under the tie-break order has at least as large a
value. -/
theorem Spec.GeLex_fst {a b : Int × Nat} (h : Spec.GeLex a b) : b.1 ≤ a.1 := by
  unfold Spec.GeLex at h
  omega

/-- The value component of the negated spec pair is the negated minimax
value of the subgame. -/
theorem neg1_negamax_fst (fuel : Nat) (g : Game) (d : Nat) :
    (Spec.neg1 (Spec.negamax fuel g d)).1 = -(Spec.mmValue fuel g) := by
  show -(Spec.negamax fuel g d).1 = _
  rw [negamax_fst_mmValue]

/-- C1 (amended): every position the depth-aware `ai.rs` selector returns
is available, leads to a subgame whose minimax value (negated to the
mover's perspective) is the maximum over all available positions, and its
`(value, depth)` pair is best under the tie-break order — on equal values
only the smallest resolution depth survives, for wins and losses alike.
The core selector applies no depth filter: in its searching regime (two to
eight available positions) it returns exactly the value-maximal available
positions — membership in both directions — and with zero, one or nine
available positions it returns the available positions unchanged, without
searching. -/
theorem C1_selected_moves_optimal :
    (∀ g : Game, Game.Wf g → g.is_playing = true →
      ∀ x ∈ Ai.moves g,
        x ∈ g.available_positions ∧
        (∀ q ∈ g.available_positions,
          -(Spec.mmValue 9 (g.playG q)) ≤ -(Spec.mmValue 9 (g.playG x))) ∧
        (∀ q ∈ g.available_positions,
          Spec.GeLex (Spec.neg1 (Spec.negamax 9 (g.playG x) 1))
            (Spec.neg1 (Spec.negamax 9 (g.playG q) 1)))) ∧
    (∀ g : Game, Game.Wf g → g.is_playing = true →
      2 ≤ g.grid.available_positions.length → g.grid.available_positions.length ≤ 8 →
      ∀ x, x ∈ CoreAi.moves g ↔
        (x ∈ g.grid.available_positions ∧
          ∀ q ∈ g.grid.available_positions,
            -(Spec.mmValue 9 (g.playG q)) ≤ -(Spec.mmValue 9 (g.playG x)))) ∧
    (∀ g : Game,
      g.grid.available_positions.length = 0 ∨ g.grid.available_positions.length = 1 ∨
        g.grid.available_positions.length = 9 →
      CoreAi.moves g = g.grid.available_positions) := by
  refine ⟨?_, ?_, ?_⟩
  · intro g hw hp x hx
    obtain ⟨h1, h2⟩ := moves_old_sound g hw hp x hx
    refine ⟨h1, ?_, h2⟩
    intro q hq
    have h3 := Spec.GeLex_fst (h2 q hq)
    rw [neg1_negamax_fst, neg1_negamax_fst] at h3
    exact h3
  · exact fun g hw hp h2 h8 => moves_core_exact g hw hp h2 h8
  · exact fun g h => moves_core_shortcut g h

/-- C1 witness: the three parts of the optimality theorem applied at
concrete games — the depth-aware selector on a one-empty-cell game, the
searching core selector on the four-winning-moves game (both directions of
the equivalence usable, the forward one instantiated), and the shortcut
regime on the fresh empty board. -/
theorem C1_witness :
    ((2, 0) ∈ gNearDraw.available_positions ∧
      Spec.GeLex (Spec.neg1 (Spec.negamax 9 (gNearDraw.playG (2, 0)) 1))
        (Spec.neg1 (Spec.negamax 9 (gNearDraw.playG (2, 0)) 1))) ∧
    ((2, 0) ∈ gWinFour.grid.available_positions ∧
      -(Spec.mmValue 9 (gWinFour.playG (0, 1))) ≤ -(Spec.mmValue 9 (gWinFour.playG (2, 0)))) ∧
    CoreAi.moves (Game.start Mark.X) = (Game.start Mark.X).grid.available_positions := by
  have h1 := C1_selected_moves_optimal.1 gNearDraw (by decide) (by decide) (2, 0) (by decide)
  have h2 := (C1_selected_moves_optimal.2.1 gWinFour (by decide) (by decide) (by decide)
    (by decide) (2, 0)).mp (by decide)
  have h3 := C1_selected_moves_optimal.2.2 (Game.start Mark.X)
    (Or.inr (Or.inr (by decide)))
  exact ⟨⟨h1.1, h1.2.2 (2, 0) h1.1⟩, ⟨h2.1, h2.2 (0, 1) (by decide)⟩, h3⟩

/-- C1 counterexample: on the `gWinFour` state the core selector returns
`(1,1)`, which shares the best value with the available `(2,0)` but
resolves strictly deeper, so "among positions sharing the best value only
those reaching resolution at the smallest depth are returned" is false for
`moves`. -/
theorem C1_counterexample :
    (1, 1) ∈ CoreAi.moves gWinFour ∧
    (2, 0) ∈ gWinFour.grid.available_positions ∧
    (Spec.neg1 (Spec.negamax 9 (gWinFour.playG (1, 1)) 1)).1
      = (Spec.neg1 (Spec.negamax 9 (gWinFour.playG (2, 0)) 1)).1 ∧
    (Spec.negamax 9 (gWinFour.playG (2, 0)) 1).2
      < (Spec.negamax 9 (gWinFour.playG (1, 1)) 1).2 := by
  decide
